import Mathlib

/-!
Verification of the joj blockchain core against its natural-language
specification.  The data model and operations below are shallow embeddings of
the JavaScript sources: `BlockChainLogic.js` (addBlockTo, mineBlockTo,
isChainValid, minePendingTransactions, calculateBalanceOfAddress), the
`Block` factory with its `HasHash` canonical field list
`[timestamp, previousHash, nonce, pendingTransactions]` and `isValid`, the
`Validation` Success/Failure monad of `5-6-5.spec.mjs`, and the array helpers
of `common/helpers.js`.  Components of the repository that are only imported
by those files (HashEngine, proof_of_work, Blockchain.lookUp, newTxBlock) are
modelled from the specification and marked as such in their doc comments.

Hex digests are modelled as natural numbers: a 64-character hex digest string
is identified with its numeric value, so the genesis sentinel string of 64
zero characters is the value 0, and a digest starts with D zero hex
characters exactly when its value modulo 16^64 is below 16^(64 - D).
Addresses and currency symbols are modelled as numeric codes; a null JS
address is `Option.none`.
-/

namespace Joj

/-- Money value: a currency tag and a signed amount (`Money(currency, amount)`
in `data/Money`; the spec describes it as a commutative monoid under
amount-wise addition with the zero-amount identity). -/
structure Money where
  currency : Nat
  amount : Int
deriving DecidableEq

/-- A value-transfer record: `Transaction(fromAddress, toAddress, money)`.
A `none` sender models the JS `null` sender of reward transactions. -/
structure Transaction where
  fromAddress : Option Nat
  toAddress : Nat
  money : Money
deriving DecidableEq

/-- The numeric amount of a transaction's funds (`tx.amount` in the numeric
version of the balance calculator, `tx.money.amount` in the Money version). -/
def Transaction.amount (t : Transaction) : Int := t.money.amount

/-- A block of the chain, after the `Block` factory in `data/Block`:
`id`, `previousHash`, `pendingTransactions`, `difficulty` (constructor sets
2), `nonce` (starts 0), `timestamp`, and `hash`, which starts out undefined
(`none`) and is computed later.  `previousHash` is `none` while unset and
`some 0` for the genesis sentinel of 64 zero hex characters. -/
structure Block where
  id : Nat
  previousHash : Option Nat
  pendingTransactions : List Transaction
  difficulty : Nat
  nonce : Nat
  timestamp : Nat
  hash : Option Nat
deriving DecidableEq

/-- The ledger: an ordered sequence of blocks plus the mutable working set of
pending transactions awaiting the next mined block. -/
structure Blockchain where
  blocks : List Block
  pendingTransactions : List Transaction
deriving DecidableEq

/-! ### The modelled hash engine -/

/-- Injective code of a signed amount as a natural number. -/
def encInt : Int → Nat
  | Int.ofNat n => 2 * n
  | Int.negSucc n => 2 * n + 1

/-- Injective code of an optional digest / address. -/
def encOpt : Option Nat → Nat
  | none => 0
  | some n => n + 1

/-- Injective code of a transaction's canonical fields. -/
def encTx (t : Transaction) : Nat :=
  Nat.pair (encOpt t.fromAddress)
    (Nat.pair t.toAddress (Nat.pair (encInt t.money.amount) t.money.currency))

/-- Injective code of a transaction list. -/
def encTxList : List Transaction → Nat
  | [] => 0
  | t :: ts => Nat.pair (encTx t) (encTxList ts) + 1

/-- Modelled from the spec: HashEngine (`util/HashEngine`, absent from the
sources) produces a deterministic digest of the block's canonical field list
`[timestamp, previousHash, nonce, pendingTransactions]` declared by
`HasHash`, with different output for any change to any listed field's value.
We realise it as an injective pairing of the field codes. -/
def calculateHash (b : Block) : Nat :=
  Nat.pair b.timestamp
    (Nat.pair (encOpt b.previousHash)
      (Nat.pair b.nonce (encTxList b.pendingTransactions)))

/-- Whether a block is a genesis block: its `previousHash` equals the
sentinel string of 64 zero characters (value 0 in the digest model). -/
def isGenesis (b : Block) : Bool := b.previousHash == some 0

/-! ### Chain-wide validity (`isChainValid` in `BlockChainLogic.js`) -/

/-- Chain-wide validity check, translated from `isChainValid`: take the block
array, drop the first entry, pair each remaining block (at sliced index i)
with `blockAt(i)` — its predecessor — and require of every pair that the
current block's hash equals the recomputed digest of its current fields and
that its `previousHash` equals the previous block's hash. -/
def isChainValid (chain : List Block) : Bool :=
  ((chain.drop 1).zip chain).all fun p =>
    p.1.hash == some (calculateHash p.1) && p.1.previousHash == p.2.hash

/-- The adjacent (current, previous) pairs of a chain, recursively. -/
def adjPairs : List Block → List (Block × Block)
  | b1 :: b2 :: rest => (b2, b1) :: adjPairs (b2 :: rest)
  | _ => []

/-- The single-pair check performed by `isChainValid`. -/
def pairChecks (cur prev : Block) : Bool :=
  cur.hash == some (calculateHash cur) && cur.previousHash == prev.hash

/-! ### Difficulty predicate and the standard per-block checks -/

/-- Whether a digest (modelled as the numeric value of a 64-hex-character
string) starts with `d` leading zero hex characters: its value modulo 16^64
is below 16^(64 - d).  For d = 0 this holds of every digest, matching the JS
test that every string starts with the empty string. -/
def hexPrefixOk (h : Nat) (d : Nat) : Bool := h % 16 ^ 64 < 16 ^ (64 - d)

/-- Modelled from the spec: `Blockchain.lookUp(hash)` (the `Blockchain` data
class is absent from the sources) returns the block whose hash matches, or a
not-found signal. -/
def lookUp (chain : List Block) (h : Option Nat) : Option Block :=
  chain.find? fun b => b.hash == h

/-- Modelled from the spec: the standard checks for a block against its
predecessor, after the five checks named by `Block.isValid`
(checkLength, checkNoTampering, checkDifficulty, checkLinkage,
checkTimestamps): the hash has the expected digest length (it is present —
every produced digest has length 64), the hash equals the recomputed digest
of the current fields, the hash satisfies the difficulty prefix, the
previousHash equals the previous block's hash, and the timestamp is not
earlier than the previous block's timestamp. -/
def standardBlockChecks (b previous : Block) : Bool :=
  b.hash.isSome &&
  b.hash == some (calculateHash b) &&
  hexPrefixOk (calculateHash b) b.difficulty &&
  b.previousHash == previous.hash &&
  decide (previous.timestamp ≤ b.timestamp)

/-- The claimed chain-wide property: every block after index 0, paired with
its predecessor, passes all five standard block checks.  This definition
follows the words of the specification and is compared against the source's
`isChainValid`. -/
def chainStandardValid (chain : List Block) : Bool :=
  (adjPairs chain).all fun p => standardBlockChecks p.1 p.2

/-! ### The Validation Success/Failure monad (5-6-5.spec.mjs) -/

/-- The two-variant validation outcome: Success carrying a value, or Failure
carrying an error payload. -/
inductive Validation (ε α : Type) where
  | success (value : α)
  | failure (error : ε)
deriving DecidableEq

/-- Translated from the JS monad mixin: on a Success, `flatMap(f)` maps `f`
over the carried value and unwraps (`this.map(f).get()`); on a Failure, the
short-circuit flag makes `flatMap` return the Failure itself unchanged. -/
def Validation.flatMap : Validation ε α → (α → Validation ε β) → Validation ε β
  | success x, f => f x
  | failure e, _ => failure e

/-- A validation pipeline: the ordered list of checks is applied to the
entity by chaining `flatMap` from `Success(entity)`. -/
def runPipeline (checks : List (α → Validation ε α)) (entity : α) :
    Validation ε α :=
  checks.foldl (fun acc c => acc.flatMap c) (Validation.success entity)

/-- Block-level validation, translated from `Block.isValid`: a genesis block
is immediately `Success(true)`; otherwise the previous block is looked up by
`previousHash` and the five standard checks must all pass, else a Failure
with a message is produced.  A lookup miss fails closed, as the spec requires
of a LookupMiss. -/
def blockIsValid (chain : List Block) (b : Block) :
    Validation (List String) Bool :=
  if isGenesis b then Validation.success true
  else
    match lookUp chain b.previousHash with
    | some previous =>
        if standardBlockChecks b previous then Validation.success true
        else Validation.failure ["Validation failed for block"]
    | none => Validation.failure ["Validation failed for block"]

/-! ### Adding and mining blocks -/

/-- The hash of the last block of the chain (`blockchain.last().hash`);
`none` if the chain is empty or the last block's hash is unset. -/
def lastHash (chain : List Block) : Option Nat :=
  match chain.getLast? with
  | some b => b.hash
  | none => none

/-- Translated from `addBlockTo`: point the new block's `previousHash` at the
current last block's hash, recompute the new block's hash from its current
fields, and push it onto the chain.  Returns the extended chain and the block
as pushed. -/
def addBlockTo (chain : List Block) (newBlock : Block) : List Block × Block :=
  let b1 := { newBlock with previousHash := lastHash chain }
  let b2 := { b1 with hash := some (calculateHash b1) }
  (chain ++ [b2], b2)

/-- Modelled from the spec: the ProofOfWork nonce search (`proof_of_work`,
absent from the sources) over an abstract digest-per-nonce function:
starting at nonce n, repeatedly test whether the digest of the current nonce
satisfies the difficulty prefix and increment otherwise.  The unbounded
JS loop is indexed by explicit fuel; `none` means the fuel ran out before a
satisfying nonce was reached. -/
def proofOfWorkLoop (H : Nat → Nat) (d : Nat) : Nat → Nat → Option Nat
  | 0, _ => none
  | fuel + 1, n =>
      if hexPrefixOk (H n) d then some n
      else proofOfWorkLoop H d fuel (n + 1)

/-- Modelled from the spec: mining a block — increment the block's nonce and
recompute its hash via the hash engine until the hash satisfies the
difficulty prefix, then fix the found hash on the block.  Fuel-indexed as in
`proofOfWorkLoop`. -/
def mineBlockFrom (d : Nat) : Nat → Block → Option Block
  | 0, _ => none
  | fuel + 1, b =>
      let h := calculateHash b
      if hexPrefixOk h d then some { b with hash := some h }
      else mineBlockFrom d fuel { b with nonce := b.nonce + 1 }

/-- The fixed mining difficulty constant of `BlockChainLogic`. -/
def MINING_DIFFICULTY : Nat := 2

/-- The fixed mining reward of `BlockChainLogic`: 100 units (the Money
version tags it with the bitcoin currency symbol, coded 0 here). -/
def MINING_REWARD_SCORE : Money := { currency := 0, amount := 100 }

/-- Translated from `mineBlockTo`: point the new block's `previousHash` at
the current last block's hash, mine it at the fixed difficulty, and push the
mined block. -/
def mineBlockTo (fuel : Nat) (chain : Blockchain) (newBlock : Block) :
    Option (Blockchain × Block) :=
  let b1 := { newBlock with previousHash := lastHash chain.blocks }
  match mineBlockFrom MINING_DIFFICULTY fuel b1 with
  | some mined => some ({ chain with blocks := chain.blocks ++ [mined] }, mined)
  | none => none

/-- Modelled from the spec: `BlockLogic.newTxBlock(timestamp, txs)` (absent
from the sources) constructs a fresh transactional block carrying the given
timestamp and pending transactions, with the constructor defaults of the
`Block` factory: difficulty 2, nonce 0, hash and previousHash unset. -/
def newTxBlock (timestamp : Nat) (txs : List Transaction) : Block :=
  { id := 0, previousHash := none, pendingTransactions := txs,
    difficulty := 2, nonce := 0, timestamp := timestamp, hash := none }

/-- Translated from `minePendingTransactions`: build a block from the
ledger's current pending transactions, mine and push it via `mineBlockTo`,
then reset the ledger's pending transactions to the single reward
transaction from the null sender to the miner's address. -/
def minePendingTransactions (fuel : Nat) (chain : Blockchain)
    (miningRewardAddress : Nat) (now : Nat) : Option (Blockchain × Block) :=
  match mineBlockTo fuel chain (newTxBlock now chain.pendingTransactions) with
  | some (c, block) =>
      some ({ c with pendingTransactions :=
        [{ fromAddress := none, toAddress := miningRewardAddress,
           money := MINING_REWARD_SCORE }] }, block)
  | none => none

/-! ### Balance calculation -/

/-- The `concat` helper of `common/helpers.js`: `concat(a, whole)` appends
`a` after `whole`.  As a reduce callback the accumulator arrives first, so
each step prepends the current chunk before the accumulated one. -/
def concatCb (a whole : List α) : List α := whole ++ a

/-- A JS `Array.prototype.reduce` with no initial value: undefined (`none`)
on an empty array, otherwise a left fold seeded with the first element. -/
def jsReduceNoInit (f : α → α → α) : List α → Option α
  | [] => none
  | x :: xs => some (xs.foldl f x)

/-- The `Array.prototype.split` helper of `common/helpers.js`: the pair of
the elements satisfying the first predicate and those satisfying the
second. -/
def splitArr (p1 p2 : α → Bool) (l : List α) : List α × List α :=
  (l.filter p1, l.filter p2)

/-- Translated from `calculateBalanceOfAddress`: keep the non-genesis
blocks, take each one's transaction array, group them into one array with
the unseeded reduce over `concat` (undefined — `none` — when there is no
non-genesis block), split the transactions into the group whose sender
matches the address and the group whose recipient matches, map the first
group to negated amounts and the second to positive amounts (the biFlatMap
step, modelled from the spec's BalanceCalculator contract), and sum with
addition seeded at zero. -/
def calculateBalanceOfAddress (chain : List Block) (address : Nat) :
    Option Int :=
  (jsReduceNoInit concatCb
      ((chain.filter fun b => !isGenesis b).map
        fun txBlock => txBlock.pendingTransactions)).map
    fun txs =>
      let g := splitArr (fun tx => tx.fromAddress == some address)
        (fun tx => tx.toAddress == address) txs
      ((g.1.map fun tx => -tx.amount) ++ (g.2.map fun tx => tx.amount)).foldl
        (· + ·) 0

/-- The net contribution of one transaction to one address's balance, as the
specification describes it: plus the amount when the recipient matches,
minus the amount when the sender matches. -/
def txContribution (address : Nat) (tx : Transaction) : Int :=
  (if tx.toAddress == address then tx.amount else 0) -
    (if tx.fromAddress == some address then tx.amount else 0)

/-- The balance as the specification's words describe it: a fold of the
per-transaction contributions over every non-genesis block's transactions,
seeded at zero. -/
def balanceSpec (chain : List Block) (address : Nat) : Int :=
  ((chain.filter fun b => !isGenesis b).map
      fun b => (b.pendingTransactions.map (txContribution address)).sum).sum

/-! ### Concrete example data -/

/-- A sample funding transaction. -/
def txW : Transaction :=
  { fromAddress := none, toAddress := 7, money := { currency := 0, amount := 4 } }

/-- A sample transfer from address 7 to address 9. -/
def txX : Transaction :=
  { fromAddress := some 7, toAddress := 9, money := { currency := 0, amount := 3 } }

/-- The genesis block before its hash is computed. -/
def gBase : Block :=
  { id := 0, previousHash := some 0, pendingTransactions := [],
    difficulty := 2, nonce := 0, timestamp := 1, hash := none }

/-- The genesis block with its hash fixed. -/
def gBlk : Block := { gBase with hash := some (calculateHash gBase) }

/-- A second block before its hash is computed. -/
def b1Base : Block :=
  { id := 1, previousHash := gBlk.hash, pendingTransactions := [txW, txX],
    difficulty := 2, nonce := 0, timestamp := 2, hash := none }

/-- A second block, properly linked and hashed. -/
def b1Blk : Block := { b1Base with hash := some (calculateHash b1Base) }

/-- A block linked and hashed correctly but with a timestamp earlier than
the genesis block's. -/
def bBadTsBase : Block :=
  { id := 1, previousHash := gBlk.hash, pendingTransactions := [],
    difficulty := 2, nonce := 0, timestamp := 0, hash := none }

/-- The early-timestamp block with its hash fixed. -/
def bBadTs : Block := { bBadTsBase with hash := some (calculateHash bBadTsBase) }

/-- A structurally valid chain: nonempty, headed by a genesis block carrying
the sentinel previous hash, with every later block hashed from its current
fields and linked to its predecessor's hash (the Ledger invariant of the
specification). -/
def validChainB (chain : List Block) : Bool :=
  (match chain.head? with
    | some g => g.previousHash == some 0
    | none => false) &&
  (adjPairs chain).all fun p => pairChecks p.1 p.2

/-- The block differs from the original only in its timestamp. -/
def mutatedTimestamp (b b2 : Block) : Prop :=
  b2.id = b.id ∧ b2.previousHash = b.previousHash ∧
  b2.pendingTransactions = b.pendingTransactions ∧
  b2.difficulty = b.difficulty ∧ b2.nonce = b.nonce ∧ b2.hash = b.hash ∧
  b2.timestamp ≠ b.timestamp

/-- The block differs from the original only in its previousHash. -/
def mutatedPreviousHash (b b2 : Block) : Prop :=
  b2.id = b.id ∧ b2.timestamp = b.timestamp ∧
  b2.pendingTransactions = b.pendingTransactions ∧
  b2.difficulty = b.difficulty ∧ b2.nonce = b.nonce ∧ b2.hash = b.hash ∧
  b2.previousHash ≠ b.previousHash

/-- The block differs from the original only in its nonce. -/
def mutatedNonce (b b2 : Block) : Prop :=
  b2.id = b.id ∧ b2.timestamp = b.timestamp ∧
  b2.previousHash = b.previousHash ∧
  b2.pendingTransactions = b.pendingTransactions ∧
  b2.difficulty = b.difficulty ∧ b2.hash = b.hash ∧ b2.nonce ≠ b.nonce

/-- The block differs from the original only in its transaction list. -/
def mutatedTransactions (b b2 : Block) : Prop :=
  b2.id = b.id ∧ b2.timestamp = b.timestamp ∧
  b2.previousHash = b.previousHash ∧ b2.difficulty = b.difficulty ∧
  b2.nonce = b.nonce ∧ b2.hash = b.hash ∧
  b2.pendingTransactions ≠ b.pendingTransactions

/-- The block differs from the original only in its stored hash. -/
def mutatedHash (b b2 : Block) : Prop :=
  b2.id = b.id ∧ b2.timestamp = b.timestamp ∧
  b2.previousHash = b.previousHash ∧
  b2.pendingTransactions = b.pendingTransactions ∧
  b2.difficulty = b.difficulty ∧ b2.nonce = b.nonce ∧ b2.hash ≠ b.hash

/-- A single-field mutation of one of the hashed fields (timestamp,
previousHash, nonce, pendingTransactions) or of the stored hash itself. -/
def hashedFieldMutation (b b2 : Block) : Prop :=
  mutatedTimestamp b b2 ∨ mutatedPreviousHash b b2 ∨ mutatedNonce b b2 ∨
  mutatedTransactions b b2 ∨ mutatedHash b b2

instance (b b2 : Block) : Decidable (mutatedTimestamp b b2) := by
  unfold mutatedTimestamp; infer_instance

instance (b b2 : Block) : Decidable (mutatedPreviousHash b b2) := by
  unfold mutatedPreviousHash; infer_instance

instance (b b2 : Block) : Decidable (mutatedNonce b b2) := by
  unfold mutatedNonce; infer_instance

instance (b b2 : Block) : Decidable (mutatedTransactions b b2) := by
  unfold mutatedTransactions; infer_instance

instance (b b2 : Block) : Decidable (mutatedHash b b2) := by
  unfold mutatedHash; infer_instance

instance (b b2 : Block) : Decidable (hashedFieldMutation b b2) := by
  unfold hashedFieldMutation; infer_instance

/-- Two blocks that agree on their previous hash and whose transaction lists
are permutations of one another. -/
def blockPermEquiv (b b2 : Block) : Prop :=
  b.previousHash = b2.previousHash ∧
  b.pendingTransactions.Perm b2.pendingTransactions

/-- A digest (as a 64-hex-character value) has exactly d leading zero hex
characters: it satisfies the difficulty-d prefix but, unless d fills the
whole digest, not the difficulty-(d+1) prefix. -/
def hasExactLeadingZeros (h d : Nat) : Prop :=
  hexPrefixOk h d = true ∧ (d < 64 → hexPrefixOk h (d + 1) = false)

instance (h d : Nat) : Decidable (hasExactLeadingZeros h d) := by
  unfold hasExactLeadingZeros; infer_instance

/-- A digest function whose output is the all-zero digest at every nonce. -/
def zeroDigest : Nat → Nat := fun _ => 0

/-- A digest function that misses the difficulty-1 prefix at nonce 0 and
produces the all-zero digest from nonce 1 on. -/
def wDigest : Nat → Nat := fun n => if n = 0 then 16 ^ 64 - 1 else 0

/-- A sample check for the validation pipeline: succeed on positive inputs
with the entity itself. -/
def checkPos : Nat → Validation String Nat :=
  fun n => if 0 < n then Validation.success n else Validation.failure "neg"

/-- A sample always-failing check for the validation pipeline. -/
def cFail : Nat → Validation String Nat :=
  fun _ => Validation.failure "bad"

/-- A self-transfer: sender and recipient are the same address. -/
def txSelf : Transaction :=
  { fromAddress := some 7, toAddress := 7, money := { currency := 0, amount := 5 } }

/-- A ledger holding just the genesis block and one pending transaction,
ready for mining. -/
def exBC6 : Blockchain := { blocks := [gBlk], pendingTransactions := [txW] }

/-- The block that mining the pending transaction of `exBC6` at timestamp 5
reaches: nonce 47 is the first nonce whose digest meets the difficulty-2
prefix. -/
def wBase : Block :=
  { id := 0, previousHash := gBlk.hash, pendingTransactions := [txW],
    difficulty := 2, nonce := 47, timestamp := 5, hash := none }

/-- The mined block of `exBC6` with its found hash fixed. -/
def wMined : Block := { wBase with hash := some (calculateHash wBase) }

/-- The ledger state after `minePendingTransactions` on `exBC6`. -/
def wChain : Blockchain :=
  { blocks := [gBlk, wMined],
    pendingTransactions :=
      [{ fromAddress := none, toAddress := 7, money := MINING_REWARD_SCORE }] }

/-- A linked second block carrying two transactions, for the permutation
claims. -/
def bABase : Block :=
  { id := 1, previousHash := gBlk.hash, pendingTransactions := [txW, txX],
    difficulty := 2, nonce := 0, timestamp := 3, hash := none }

/-- The two-transaction block with its hash fixed. -/
def bA : Block := { bABase with hash := some (calculateHash bABase) }

/-- The two-transaction block with its transaction list reversed. -/
def bAPerm : Block := { bA with pendingTransactions := [txX, txW] }

/-! ### Helper lemmas -/

theorem encInt_injective : Function.Injective encInt := by
  intro a b h
  cases a with
  | ofNat m =>
    cases b with
    | ofNat n =>
      simp only [encInt] at h
      exact congrArg Int.ofNat (by omega)
    | negSucc n =>
      simp only [encInt] at h
      exact absurd h (by omega)
  | negSucc m =>
    cases b with
    | ofNat n =>
      simp only [encInt] at h
      exact absurd h (by omega)
    | negSucc n =>
      simp only [encInt] at h
      exact congrArg Int.negSucc (by omega)

theorem encOpt_injective : Function.Injective encOpt := by
  intro a b h
  cases a with
  | none =>
    cases b with
    | none => rfl
    | some n => simp only [encOpt] at h; exact absurd h (by omega)
  | some m =>
    cases b with
    | none => simp only [encOpt] at h; exact absurd h (by omega)
    | some n => simp only [encOpt] at h; exact congrArg some (by omega)

theorem encTx_injective : Function.Injective encTx := by
  intro a b h
  obtain ⟨fa, ta, ⟨ca, aa⟩⟩ := a
  obtain ⟨fb, tb, ⟨cb, ab⟩⟩ := b
  simp only [encTx] at h
  obtain ⟨h1, h25⟩ := Nat.pair_eq_pair.mp h
  obtain ⟨h2, h35⟩ := Nat.pair_eq_pair.mp h25
  obtain ⟨h3, h4⟩ := Nat.pair_eq_pair.mp h35
  have e1 : fa = fb := encOpt_injective h1
  have e3 : aa = ab := encInt_injective h3
  subst e1; subst h2; subst e3; subst h4; rfl

theorem encTxList_injective : Function.Injective encTxList := by
  intro a
  induction a with
  | nil => intro b h; cases b with
    | nil => rfl
    | cons t ts => simp [encTxList] at h
  | cons t ts ih =>
    intro b h
    cases b with
    | nil => simp [encTxList] at h
    | cons u us =>
      simp only [encTxList, Nat.add_right_cancel_iff] at h
      obtain ⟨h1, h2⟩ := Nat.pair_eq_pair.mp h
      rw [encTx_injective h1, ih h2]

theorem zip_drop_eq_adjPairs (chain : List Block) :
    (chain.drop 1).zip chain = adjPairs chain := by
  induction chain with
  | nil => rfl
  | cons b rest ih =>
    cases rest with
    | nil => rfl
    | cons b2 rest2 =>
      have ih2 := ih
      simp only [List.drop_one, List.tail_cons] at ih2
      simp only [List.drop_one, List.tail_cons, adjPairs, List.zip_cons_cons]
      rw [ih2]

theorem isChainValid_eq_all_adjPairs (chain : List Block) :
    isChainValid chain = (adjPairs chain).all fun p => pairChecks p.1 p.2 := by
  unfold isChainValid pairChecks
  rw [zip_drop_eq_adjPairs]

/-! ### Structural lemmas about adjacent pairs and the hash -/

theorem calculateHash_fields_eq {a b : Block}
    (h : calculateHash a = calculateHash b) :
    a.timestamp = b.timestamp ∧ a.previousHash = b.previousHash ∧
      a.nonce = b.nonce ∧ a.pendingTransactions = b.pendingTransactions := by
  unfold calculateHash at h
  obtain ⟨h1, h2⟩ := Nat.pair_eq_pair.mp h
  obtain ⟨h3, h4⟩ := Nat.pair_eq_pair.mp h2
  obtain ⟨h5, h6⟩ := Nat.pair_eq_pair.mp h4
  exact ⟨h1, encOpt_injective h3, h5, encTxList_injective h6⟩

theorem calculateHash_congr {a b : Block} (h1 : a.timestamp = b.timestamp)
    (h2 : a.previousHash = b.previousHash) (h3 : a.nonce = b.nonce)
    (h4 : a.pendingTransactions = b.pendingTransactions) :
    calculateHash a = calculateHash b := by
  unfold calculateHash
  rw [h1, h2, h3, h4]

theorem adjPairs_mem (chain : List Block) (j : Nat) (h : j + 1 < chain.length) :
    (chain.get ⟨j + 1, h⟩, chain.get ⟨j, by omega⟩) ∈ adjPairs chain := by
  induction chain generalizing j with
  | nil => simp at h
  | cons b rest ih =>
    cases rest with
    | nil => simp at h
    | cons b2 rest2 =>
      cases j with
      | zero => simp [adjPairs]
      | succ j2 =>
        have h2 : j2 + 1 < (b2 :: rest2).length := by
          simp at h ⊢; omega
        have := ih j2 h2
        simp only [adjPairs, List.mem_cons]
        right
        exact this

theorem adjPairs_append (chain : List Block) (x : Block) :
    adjPairs (chain ++ [x]) =
      adjPairs chain ++
        (match chain.getLast? with
          | some p => [(x, p)]
          | none => []) := by
  induction chain with
  | nil => rfl
  | cons b rest ih =>
    cases rest with
    | nil => rfl
    | cons b2 rest2 =>
      simp only [List.cons_append, List.append_eq, adjPairs,
        List.getLast?_cons_cons]
      rw [← List.cons_append, ih]

theorem calculateHash_set_hash (b : Block) (x : Option Nat) :
    calculateHash { b with hash := x } = calculateHash b := rfl

theorem foldl_concatCb (L : List (List α)) (x : List α) :
    L.foldl concatCb x = (x :: L).reverse.flatten := by
  induction L generalizing x with
  | nil => simp [concatCb]
  | cons B Lr ih =>
    simp only [List.foldl_cons]
    rw [ih]
    simp [concatCb, List.flatten_append, List.append_assoc]

theorem split_sum (addr : Nat) (txs : List Transaction) :
    (((txs.filter fun tx => tx.fromAddress == some addr).map
        fun tx => -tx.amount) ++
      ((txs.filter fun tx => tx.toAddress == addr).map
        fun tx => tx.amount)).sum
    = (txs.map (txContribution addr)).sum := by
  induction txs with
  | nil => rfl
  | cons t rest ih =>
    by_cases h1 : t.fromAddress = some addr <;>
      by_cases h2 : t.toAddress = addr <;>
        simp [List.filter_cons, h1, h2, txContribution, List.sum_append]
          at ih ⊢ <;>
        omega

theorem split_expr_eq (addr : Nat) (txs : List Transaction) :
    (((txs.filter fun tx => tx.fromAddress == some addr).map
        fun tx => -tx.amount) ++
      ((txs.filter fun tx => tx.toAddress == addr).map
        fun tx => tx.amount)).foldl (· + ·) 0
    = (txs.map (txContribution addr)).sum := by
  rw [← List.sum_eq_foldl]
  exact split_sum addr txs

theorem map_sum_flatten_reverse (L : List (List Transaction))
    (f : Transaction → Int) :
    (L.reverse.flatten.map f).sum = (L.map fun l => (l.map f).sum).sum := by
  rw [List.map_flatten, List.sum_flatten, List.map_reverse, List.map_reverse,
    List.sum_reverse, List.map_map]
  simp [Function.comp_def]

theorem balance_none_iff (chain : List Block) (addr : Nat) :
    calculateBalanceOfAddress chain addr = none ↔
      (chain.filter fun b => !isGenesis b) = [] := by
  unfold calculateBalanceOfAddress
  cases hf : (chain.filter fun b => !isGenesis b) with
  | nil => simp [jsReduceNoInit]
  | cons f0 frest => simp [jsReduceNoInit]

theorem balance_some (chain : List Block) (addr : Nat)
    (h : (chain.filter fun b => !isGenesis b) ≠ []) :
    calculateBalanceOfAddress chain addr = some (balanceSpec chain addr) := by
  unfold calculateBalanceOfAddress balanceSpec
  cases hf : (chain.filter fun b => !isGenesis b) with
  | nil => exact absurd hf h
  | cons f0 frest =>
    simp only [List.map_cons, jsReduceNoInit, foldl_concatCb, Option.map_some',
      splitArr, Option.some.injEq]
    rw [split_expr_eq, ← List.map_cons, map_sum_flatten_reverse]
    simp [List.map_map, Function.comp_def]

theorem mineBlockFrom_spec (d : Nat) :
    ∀ (fuel : Nat) (b m : Block), mineBlockFrom d fuel b = some m →
      m.hash = some (calculateHash m) ∧
      hexPrefixOk (calculateHash m) d = true ∧
      m.pendingTransactions = b.pendingTransactions ∧
      m.difficulty = b.difficulty ∧ m.timestamp = b.timestamp ∧
      m.previousHash = b.previousHash ∧ m.id = b.id := by
  intro fuel
  induction fuel with
  | zero => intro b m hm; simp [mineBlockFrom] at hm
  | succ f ih =>
    intro b m hm
    simp only [mineBlockFrom] at hm
    by_cases hc : hexPrefixOk (calculateHash b) d = true
    · rw [if_pos hc] at hm
      obtain rfl := (Option.some.injEq _ _).mp hm
      rw [calculateHash_set_hash]
      exact ⟨rfl, hc, rfl, rfl, rfl, rfl, rfl⟩
    · rw [if_neg hc] at hm
      exact ih { b with nonce := b.nonce + 1 } m hm

theorem proofOfWorkLoop_aux (H : Nat → Nat) (d : Nat) :
    ∀ (n start : Nat), hexPrefixOk (H (start + n)) d = true →
      (∀ k, start ≤ k → k < start + n → hexPrefixOk (H k) d = false) →
      proofOfWorkLoop H d (n + 1) start = some (start + n) := by
  intro n
  induction n with
  | zero =>
    intro start h1 _
    simp only [Nat.add_zero] at h1
    simp [proofOfWorkLoop, h1]
  | succ n2 ih =>
    intro start h1 h2
    have hs : hexPrefixOk (H start) d = false :=
      h2 start le_rfl (by omega)
    have e : start + 1 + n2 = start + (n2 + 1) := by omega
    have step := ih (start + 1) (by rw [e]; exact h1)
      (fun k hk1 hk2 => h2 k (by omega) (by omega))
    rw [e] at step
    simp only [proofOfWorkLoop, hs]
    simpa using step

theorem forall2_filter_nonGenesis {l1 l2 : List Block}
    (h : List.Forall₂ blockPermEquiv l1 l2) :
    List.Forall₂ blockPermEquiv (l1.filter fun b => !isGenesis b)
      (l2.filter fun b => !isGenesis b) := by
  induction h with
  | nil => exact List.Forall₂.nil
  | @cons a b la lb hr hrest ih =>
    have hg : isGenesis a = isGenesis b := by
      unfold isGenesis; rw [hr.1]
    by_cases hga : isGenesis a = true
    · simp only [List.filter_cons, hga, hg ▸ hga]
      simpa using ih
    · have hga2 : isGenesis a = false := by
        cases hx : isGenesis a
        · rfl
        · exact absurd hx hga
      simp only [List.filter_cons, hga2, hg ▸ hga2]
      simpa using List.Forall₂.cons hr ih

theorem forall2_map_blockSum {l1 l2 : List Block} (addr : Nat)
    (h : List.Forall₂ blockPermEquiv l1 l2) :
    l1.map (fun b => (b.pendingTransactions.map (txContribution addr)).sum)
      = l2.map
          (fun b => (b.pendingTransactions.map (txContribution addr)).sum) := by
  induction h with
  | nil => rfl
  | @cons a b la lb hr hrest ih =>
    simp only [List.map_cons]
    rw [ih, ((hr.2).map (txContribution addr)).sum_eq]

theorem forall2_nil_iff {l1 l2 : List Block}
    (h : List.Forall₂ blockPermEquiv l1 l2) : l1 = [] ↔ l2 = [] := by
  cases h with
  | nil => simp
  | cons hr hrest => simp

theorem runPipeline_success (checks : List (α → Validation ε α)) (entity : α)
    (h : ∀ c ∈ checks, c entity = Validation.success entity) :
    runPipeline checks entity = Validation.success entity := by
  induction checks with
  | nil => rfl
  | cons c cs ih =>
    unfold runPipeline
    rw [List.foldl_cons]
    show List.foldl _ ((Validation.success entity).flatMap c) cs = _
    rw [show (Validation.success entity).flatMap c = c entity from rfl,
      h c (by simp)]
    exact ih fun c2 hc2 => h c2 (by simp [hc2])

theorem foldl_flatMap_failure (checks : List (α → Validation ε α)) (e : ε) :
    checks.foldl (fun acc c => acc.flatMap c) (Validation.failure e) =
      Validation.failure e := by
  induction checks with
  | nil => rfl
  | cons c cs ih => simpa [Validation.flatMap] using ih

theorem runPipeline_append (pre rest : List (α → Validation ε α))
    (entity : α) :
    runPipeline (pre ++ rest) entity =
      rest.foldl (fun acc c => acc.flatMap c) (runPipeline pre entity) := by
  unfold runPipeline
  exact List.foldl_append _ _ pre rest

/-! ### Claim theorems -/

/-- C1 (amended): the chain-wide validity check returns true iff every block
after index 0, paired with its predecessor, passes the tamper check (its
hash equals the recomputed digest of its current fields) and the linkage
check (its previousHash equals the previous block's hash); the hash-length,
difficulty-prefix and timestamp checks are not part of the chain-wide
validation. -/
theorem claim1_isChainValid_checks_tamper_and_linkage (chain : List Block) :
    isChainValid chain = true ↔
      ∀ p ∈ adjPairs chain,
        p.1.hash = some (calculateHash p.1) ∧
          p.1.previousHash = p.2.hash := by
  rw [isChainValid_eq_all_adjPairs, List.all_eq_true]
  constructor
  · intro h p hp
    have := h p hp
    simpa [pairChecks] using this
  · intro h p hp
    have := h p hp
    simp [pairChecks, this.1, this.2]

/-- C1 witness: a concrete two-block chain whose pairs all pass the tamper
and linkage checks is accepted by isChainValid. -/
theorem claim1_witness : isChainValid [gBlk, b1Blk] = true :=
  (claim1_isChainValid_checks_tamper_and_linkage [gBlk, b1Blk]).mpr (by decide)

/-- C1 counterexample: a two-block chain whose second block is correctly
hashed and linked but carries a timestamp earlier than the genesis block's
is accepted by isChainValid, yet fails the five standard block checks the
claim says isChainValid is equivalent to (the timestamp check fails), so
the claimed equivalence is false. -/
theorem claim1_counterexample :
    isChainValid [gBlk, bBadTs] = true ∧
    chainStandardValid [gBlk, bBadTs] = false ∧
    bBadTs.timestamp < gBlk.timestamp := by decide

/-- C5: in a validation pipeline the checks are applied strictly in order:
a Failure is returned unchanged by flatMap for every function, a pipeline
whose checks all succeed on the entity returns Success of the entity, and
the first check that fails short-circuits the pipeline, which returns that
very Failure whatever checks follow. -/
theorem claim5_pipeline_order_and_short_circuit (ε α : Type) :
    (∀ (e : ε) (g : α → Validation ε α),
        (Validation.failure e).flatMap g = Validation.failure e) ∧
    (∀ (checks : List (α → Validation ε α)) (entity : α),
        (∀ c ∈ checks, c entity = Validation.success entity) →
        runPipeline checks entity = Validation.success entity) ∧
    (∀ (pre post : List (α → Validation ε α)) (c : α → Validation ε α)
        (entity : α) (e : ε),
        (∀ c2 ∈ pre, c2 entity = Validation.success entity) →
        c entity = Validation.failure e →
        runPipeline (pre ++ c :: post) entity = Validation.failure e) := by
  refine ⟨fun e g => rfl,
    fun checks entity h => runPipeline_success checks entity h, ?_⟩
  intro pre post c entity e hpre hc
  rw [runPipeline_append, runPipeline_success pre entity hpre,
    List.foldl_cons]
  show List.foldl _ ((Validation.success entity).flatMap c) post = _
  rw [show (Validation.success entity).flatMap c = c entity from rfl, hc]
  exact foldl_flatMap_failure post e

/-- C5 witness: concrete pipelines over Nat entities — a Failure passes
through flatMap unchanged, an all-success pipeline yields Success of the
entity, and a failing middle check short-circuits. -/
theorem claim5_witness :
    Validation.flatMap
        (Validation.failure (ε := String) (α := Nat) "bad")
        (fun n => Validation.success n) = Validation.failure "bad" ∧
    runPipeline [checkPos] 3 = Validation.success 3 ∧
    runPipeline [checkPos, cFail, checkPos] 3 = Validation.failure "bad" :=
  ⟨(claim5_pipeline_order_and_short_circuit String Nat).1 "bad"
      (fun n => Validation.success n),
    (claim5_pipeline_order_and_short_circuit String Nat).2.1 [checkPos] 3
      (by decide),
    (claim5_pipeline_order_and_short_circuit String Nat).2.2 [checkPos]
      [checkPos] cFail 3 "bad" (by decide) (by decide)⟩

/-- C7: a block whose previousHash is the genesis sentinel of 64 zero
characters validates to Success(true) in any chain, regardless of its
timestamp, id or any other field, without any chain-linkage lookup. -/
theorem claim7_genesis_always_success (chain : List Block) (b : Block)
    (h : b.previousHash = some 0) :
    blockIsValid chain b = Validation.success true := by
  unfold blockIsValid isGenesis
  simp [h]

/-- C7 witness: a block with an absurd timestamp and unset hash but the
sentinel previousHash is still Success under block validation. -/
theorem claim7_witness :
    blockIsValid []
      { id := 3, previousHash := some 0, pendingTransactions := [txW],
        difficulty := 9, nonce := 4, timestamp := 0, hash := none } =
      Validation.success true :=
  claim7_genesis_always_success _ _ rfl

/-- C9: on a chain whose blocks are all genesis blocks (in particular the
freshly constructed single-genesis chain), the balance calculation produces
no value — the unseeded reduce over the empty list of per-block transaction
arrays is undefined — whatever address is queried. -/
theorem claim9_genesis_only_balance_fails (chain : List Block) (addr : Nat)
    (h : chain.all isGenesis = true) :
    calculateBalanceOfAddress chain addr = none := by
  rw [balance_none_iff, List.filter_eq_nil_iff]
  intro b hb
  have := List.all_eq_true.mp h b hb
  simp [this]

/-- C9 witness: the single-genesis chain has no balance value at address
7. -/
theorem claim9_witness : calculateBalanceOfAddress [gBlk] 7 = none :=
  claim9_genesis_only_balance_fails [gBlk] 7 (by decide)

/-- C2 (amended): every structurally valid chain of at least one block
passes isChainValid; and mutating any single hashed field (timestamp,
previousHash, nonce, pendingTransactions) or the stored hash of a block at
index at least 1, without re-deriving its hash, makes isChainValid false.
Mutating a field outside the canonical hash list (id or difficulty) does
not, as the counterexample shows. -/
theorem claim2_valid_chain_hashed_mutation_invalidates (chain : List Block)
    (i : Nat) (b2 : Block) (hv : validChainB chain = true) (hi1 : 1 ≤ i)
    (hi2 : i < chain.length)
    (hmut : hashedFieldMutation (chain.get ⟨i, hi2⟩) b2) :
    isChainValid chain = true ∧ isChainValid (chain.set i b2) = false := by
  unfold validChainB at hv
  rw [Bool.and_eq_true] at hv
  obtain ⟨-, hv2⟩ := hv
  have hall := List.all_eq_true.mp hv2
  have hvalid : isChainValid chain = true := by
    rw [isChainValid_eq_all_adjPairs]; exact hv2
  refine ⟨hvalid, ?_⟩
  have e : i - 1 + 1 = i := by omega
  have h3 : i - 1 + 1 < chain.length := by omega
  have hmem := adjPairs_mem chain (i - 1) h3
  rw [show (⟨i - 1 + 1, h3⟩ : Fin chain.length) = ⟨i, hi2⟩ from Fin.ext e]
    at hmem
  have hpc := hall _ hmem
  simp only [pairChecks, Bool.and_eq_true, beq_iff_eq] at hpc
  have hbhash : (chain.get ⟨i, hi2⟩).hash =
      some (calculateHash (chain.get ⟨i, hi2⟩)) := hpc.1
  have hkey : ¬ b2.hash = some (calculateHash b2) := by
    rcases hmut with hm | hm | hm | hm | hm
    · obtain ⟨-, hph, htx, -, hn, hh, hts⟩ := hm
      intro hcon
      have hcalc : calculateHash b2 = calculateHash (chain.get ⟨i, hi2⟩) :=
        Option.some.inj (by rw [← hcon, hh, hbhash])
      exact hts (calculateHash_fields_eq hcalc).1
    · obtain ⟨-, hts, htx, -, hn, hh, hph⟩ := hm
      intro hcon
      have hcalc : calculateHash b2 = calculateHash (chain.get ⟨i, hi2⟩) :=
        Option.some.inj (by rw [← hcon, hh, hbhash])
      exact hph (calculateHash_fields_eq hcalc).2.1
    · obtain ⟨-, hts, hph, htx, -, hh, hn⟩ := hm
      intro hcon
      have hcalc : calculateHash b2 = calculateHash (chain.get ⟨i, hi2⟩) :=
        Option.some.inj (by rw [← hcon, hh, hbhash])
      exact hn (calculateHash_fields_eq hcalc).2.2.1
    · obtain ⟨-, hts, hph, -, hn, hh, htx⟩ := hm
      intro hcon
      have hcalc : calculateHash b2 = calculateHash (chain.get ⟨i, hi2⟩) :=
        Option.some.inj (by rw [← hcon, hh, hbhash])
      exact htx (calculateHash_fields_eq hcalc).2.2.2
    · obtain ⟨-, hts, hph, htx, -, hn, hh⟩ := hm
      intro hcon
      have hcalc : calculateHash b2 = calculateHash (chain.get ⟨i, hi2⟩) :=
        calculateHash_congr hts hph hn htx
      rw [hcalc, ← hbhash] at hcon
      exact hh hcon
  rw [isChainValid_eq_all_adjPairs]
  have hlen : i < (chain.set i b2).length := by
    rw [List.length_set]; exact hi2
  have h4 : i - 1 + 1 < (chain.set i b2).length := by
    rw [List.length_set]; omega
  have hmem2 := adjPairs_mem (chain.set i b2) (i - 1) h4
  rw [show (⟨i - 1 + 1, h4⟩ : Fin (chain.set i b2).length) = ⟨i, hlen⟩ from
    Fin.ext e] at hmem2
  have hget : (chain.set i b2).get ⟨i, hlen⟩ = b2 := by simp
  rw [hget] at hmem2
  cases hall2 : (adjPairs (chain.set i b2)).all fun p => pairChecks p.1 p.2
  · rfl
  · exfalso
    have := List.all_eq_true.mp hall2 _ hmem2
    simp only [pairChecks, Bool.and_eq_true, beq_iff_eq] at this
    exact hkey this.1

/-- C2 witness: the concrete valid two-block chain is accepted, and bumping
the second block's nonce (a hashed field) without re-deriving its hash is
rejected. -/
theorem claim2_witness :
    isChainValid [gBlk, b1Blk] = true ∧
    isChainValid ([gBlk, b1Blk].set 1 { b1Blk with nonce := 5 }) = false :=
  claim2_valid_chain_hashed_mutation_invalidates [gBlk, b1Blk] 1
    { b1Blk with nonce := 5 } (by decide) (by decide) (by decide) (by decide)

/-- C2 counterexample: on the same valid chain, mutating the single field
`difficulty` of the non-genesis second block (from 2 to 3) leaves
isChainValid true, because difficulty is not part of the canonical hash
field list — refuting the claim that mutating any single field makes the
check false. -/
theorem claim2_counterexample :
    validChainB [gBlk, b1Blk] = true ∧
    isGenesis b1Blk = false ∧
    b1Blk.difficulty = 2 ∧
    isChainValid ([gBlk, b1Blk].set 1 { b1Blk with difficulty := 3 })
      = true := by decide

/-- C10: extending a chain that passes isChainValid with addBlockTo — which
points the new block's previousHash at the last block's hash and recomputes
the new block's hash before pushing — yields a chain that still passes
isChainValid. -/
theorem claim10_addBlockTo_preserves_validity (chain : List Block)
    (nb : Block) (hne : chain ≠ []) (hv : isChainValid chain = true) :
    isChainValid (addBlockTo chain nb).1 = true := by
  obtain ⟨last, hlast⟩ : ∃ last, chain.getLast? = some last := by
    cases hgl : chain.getLast? with
    | some b => exact ⟨b, rfl⟩
    | none =>
      cases chain with
      | nil => exact absurd rfl hne
      | cons a t => simp [List.getLast?_eq_getLast] at hgl
  rw [isChainValid_eq_all_adjPairs]
  simp only [addBlockTo]
  rw [adjPairs_append, hlast, List.all_append, Bool.and_eq_true]
  constructor
  · rw [← isChainValid_eq_all_adjPairs]; exact hv
  · simp [pairChecks, lastHash, hlast]
    exact (calculateHash_set_hash _ _).symm

/-- C10 witness: adding a block to the valid single-genesis chain keeps it
valid. -/
theorem claim10_witness :
    isChainValid (addBlockTo [gBlk] b1Base).1 = true :=
  claim10_addBlockTo_preserves_validity [gBlk] b1Base (by decide) (by decide)

/-- C3 (amended): on every ledger with at least one non-genesis block the
balance of an address equals the fold of the per-transaction contributions
(plus amount when the recipient matches, minus when the sender matches)
over every non-genesis block's transactions, seeded at zero; and a
transaction whose sender equals its recipient contributes exactly zero to
that address's balance.  On a ledger with no non-genesis block the balance
calculation yields no value (see the counterexample), so the claim's
quantification over every ledger fails only there. -/
theorem claim3_balance_equals_contribution_fold (chain : List Block)
    (addr : Nat) (tx : Transaction)
    (h : (chain.filter fun b => !isGenesis b) ≠ [])
    (hself : tx.fromAddress = some tx.toAddress) :
    calculateBalanceOfAddress chain addr = some (balanceSpec chain addr) ∧
    txContribution tx.toAddress tx = 0 := by
  refine ⟨balance_some chain addr h, ?_⟩
  simp [txContribution, hself]

/-- C3 witness: on the concrete two-block chain the balance of address 7 is
the contribution fold, and the concrete self-transfer contributes zero. -/
theorem claim3_witness :
    calculateBalanceOfAddress [gBlk, b1Blk] 7 =
        some (balanceSpec [gBlk, b1Blk] 7) ∧
    txContribution txSelf.toAddress txSelf = 0 :=
  claim3_balance_equals_contribution_fold [gBlk, b1Blk] 7 txSelf (by decide)
    (by decide)

/-- C3 counterexample: on the single-genesis ledger the claimed fold is the
zero value, but the balance calculation returns no value at all (the
unseeded reduce over an empty array), so the claimed equality fails for
that ledger. -/
theorem claim3_counterexample :
    calculateBalanceOfAddress [gBlk] 7 = none ∧
    balanceSpec [gBlk] 7 = 0 ∧
    calculateBalanceOfAddress [gBlk] 7 ≠ some (balanceSpec [gBlk] 7) := by
  decide

/-- C8: the balance of an address is unchanged when each block's transaction
list is permuted and when the blocks themselves are processed in a permuted
order (the balance fold is commutative and associative). -/
theorem claim8_balance_permutation_invariant (bs1 bs2 bs3 : List Block)
    (addr : Nat) (h12 : List.Forall₂ blockPermEquiv bs1 bs2)
    (h23 : bs2.Perm bs3) :
    calculateBalanceOfAddress bs1 addr =
      calculateBalanceOfAddress bs3 addr := by
  have hf12 := forall2_filter_nonGenesis h12
  have hf23 := h23.filter fun b => !isGenesis b
  by_cases he : (bs1.filter fun b => !isGenesis b) = []
  · have he2 : (bs2.filter fun b => !isGenesis b) = [] :=
      (forall2_nil_iff hf12).mp he
    have he3 : (bs3.filter fun b => !isGenesis b) = [] := by
      rw [he2] at hf23
      exact hf23.symm.eq_nil
    rw [(balance_none_iff bs1 addr).mpr he,
      Eq.symm ((balance_none_iff bs3 addr).mpr he3)]
  · have he2 : (bs2.filter fun b => !isGenesis b) ≠ [] := fun h0 =>
      he ((forall2_nil_iff hf12).mpr h0)
    have he3 : (bs3.filter fun b => !isGenesis b) ≠ [] := by
      intro h0
      rw [h0] at hf23
      exact he2 hf23.eq_nil
    rw [balance_some bs1 addr he, balance_some bs3 addr he3]
    unfold balanceSpec
    rw [forall2_map_blockSum addr hf12,
      (hf23.map fun b =>
        (b.pendingTransactions.map (txContribution addr)).sum).sum_eq]

/-- C8 witness: permuting the transactions inside the non-genesis block and
swapping the processing order of the two blocks leaves the balance of
address 7 unchanged. -/
theorem claim8_witness :
    calculateBalanceOfAddress [gBlk, bA] 7 =
      calculateBalanceOfAddress [bAPerm, gBlk] 7 :=
  claim8_balance_permutation_invariant [gBlk, bA] [gBlk, bAPerm]
    [bAPerm, gBlk] 7
    (List.Forall₂.cons ⟨rfl, by decide⟩
      (List.Forall₂.cons ⟨rfl, by decide⟩ List.Forall₂.nil))
    (by decide)

/-- C4 (amended): for every digest-per-nonce function, difficulty d and
nonce m that satisfies the difficulty prefix while every smaller nonce does
not, the proof-of-work loop started at nonce 0 terminates at exactly that
smallest satisfying nonce m (fuel m+1 suffices — the loop would not
terminate if no nonce satisfied the prefix), and the mined digest has at
least d leading zero hex characters, possibly more; with difficulty 0 the
loop succeeds immediately at nonce 0. -/
theorem claim4_mining_reaches_least_nonce (H : Nat → Nat) (d m : Nat)
    (hm : hexPrefixOk (H m) d = true)
    (hmin : ∀ k, k < m → hexPrefixOk (H k) d = false) :
    proofOfWorkLoop H d (m + 1) 0 = some m ∧
    proofOfWorkLoop H 0 1 0 = some 0 := by
  constructor
  · have := proofOfWorkLoop_aux H d m 0 (by simpa using hm)
      fun k hk1 hk2 => hmin k (by omega)
    simpa using this
  · have h0 : hexPrefixOk (H 0) 0 = true := by
      simp only [hexPrefixOk, Nat.sub_zero, decide_eq_true_eq]
      exact Nat.mod_lt _ (pow_pos (by norm_num) 64)
    simp [proofOfWorkLoop, h0]

/-- C4 witness: a digest function missing the difficulty-1 prefix at nonce 0
and hitting it at nonce 1 is mined to nonce 1 with fuel 2, and at
difficulty 0 it succeeds immediately at nonce 0. -/
theorem claim4_witness :
    proofOfWorkLoop wDigest 1 2 0 = some 1 ∧
    proofOfWorkLoop wDigest 0 1 0 = some 0 :=
  claim4_mining_reaches_least_nonce wDigest 1 1 (by decide) (by decide)

/-- C4 counterexample: under the all-zero digest function, mining at
difficulty 1 terminates immediately at nonce 0, but the resulting digest
has 64 leading zero hex characters — it also satisfies the difficulty-2
prefix — so the mined hash does not have exactly 1 leading zero, refuting
the claim's exactness. -/
theorem claim4_counterexample :
    proofOfWorkLoop zeroDigest 1 1 0 = some 0 ∧
    hexPrefixOk (zeroDigest 0) 2 = true ∧
    ¬ hasExactLeadingZeros (zeroDigest 0) 1 := by decide

/-- C6: whenever minePendingTransactions succeeds, the resulting ledger has
its pending set reset to exactly one reward transaction with null sender,
the miner's address as recipient and the fixed reward of 100 units; the
mined block, carrying precisely the ledger's previous pending transactions
and the given timestamp, is appended to the chain; and it was mined at the
fixed difficulty constant 2 — its hash is the recomputed digest of its
fields and satisfies the difficulty-2 prefix. -/
theorem claim6_mine_pending_resets_reward (fuel : Nat) (chain : Blockchain)
    (addr now : Nat) (c : Blockchain) (b : Block)
    (h : minePendingTransactions fuel chain addr now = some (c, b)) :
    c.pendingTransactions =
        [{ fromAddress := none, toAddress := addr,
           money := MINING_REWARD_SCORE }] ∧
    MINING_REWARD_SCORE.amount = 100 ∧
    MINING_DIFFICULTY = 2 ∧
    c.blocks = chain.blocks ++ [b] ∧
    b.pendingTransactions = chain.pendingTransactions ∧
    b.difficulty = 2 ∧ b.timestamp = now ∧
    b.hash = some (calculateHash b) ∧
    hexPrefixOk (calculateHash b) MINING_DIFFICULTY = true := by
  unfold minePendingTransactions mineBlockTo at h
  dsimp only [newTxBlock] at h
  cases hm : mineBlockFrom MINING_DIFFICULTY fuel
      { id := 0, previousHash := lastHash chain.blocks,
        pendingTransactions := chain.pendingTransactions, difficulty := 2,
        nonce := 0, timestamp := now, hash := none } with
  | none => rw [hm] at h; simp at h
  | some mined =>
    rw [hm] at h
    simp only [Option.some.injEq, Prod.mk.injEq] at h
    obtain ⟨hc, hb⟩ := h
    have hs := mineBlockFrom_spec MINING_DIFFICULTY fuel _ mined hm
    subst hb
    refine ⟨?_, rfl, rfl, ?_, ?_, ?_, ?_, hs.1, hs.2.1⟩
    · rw [← hc]
    · rw [← hc]
    · exact hs.2.2.1
    · exact hs.2.2.2.1
    · exact hs.2.2.2.2.1

/-- C6 witness: mining the single pending transaction of the concrete
ledger at timestamp 5 (the search succeeds at nonce 47) appends the mined
block and leaves exactly the 100-unit reward transaction to address 7
pending. -/
theorem claim6_witness :
    wChain.pendingTransactions =
        [{ fromAddress := none, toAddress := 7,
           money := MINING_REWARD_SCORE }] ∧
    MINING_REWARD_SCORE.amount = 100 ∧
    MINING_DIFFICULTY = 2 ∧
    wChain.blocks = exBC6.blocks ++ [wMined] ∧
    wMined.pendingTransactions = exBC6.pendingTransactions ∧
    wMined.difficulty = 2 ∧ wMined.timestamp = 5 ∧
    wMined.hash = some (calculateHash wMined) ∧
    hexPrefixOk (calculateHash wMined) MINING_DIFFICULTY = true :=
  claim6_mine_pending_resets_reward 48 exBC6 7 5 wChain wMined (by decide)

end Joj
